import Mathlib

/-!
Verification of the bfq double-ended queue (circular-buffer deque).

The Go source (queue.go) is shallowly embedded here:

* the backing array `arr []T` becomes a `List T` whose length is the
  capacity; Go's `make([]T, n)` zero-fill becomes `List.replicate n default`
  (the Go zero value of `T` is modelled by the `Inhabited` default);
* the cursor and length fields are Go `int`s that remain non-negative in
  every operation of this program, so they are modelled as `Nat`; the one
  place where Go's 64-bit signed overflow is observable, the final
  increment of `nextPowerOfTwo`, is modelled explicitly by `toSigned64`;
* Go's `copy(dst, src)` (copy `min |dst| |src|` elements of `src` over the
  prefix of `dst`) becomes `goCopy`;
* the raw-pointer accessor `indexUnsafe` skips bounds checks; an in-bounds
  access reads/writes the element.  Reads are modelled with `List.getD`
  and writes with `List.set`.  When the index is out of bounds the Go code
  touches memory outside the backing store (a memory-safety violation);
  in the model an out-of-bounds `List.set` leaves the list unchanged and
  an out-of-bounds `List.getD` returns the default, and the relevant
  theorems instead exhibit the out-of-range index itself;
* `PopFront`/`PopBack`/`Front`/`Back` return Go's `(T, bool)` pair as
  `T × Bool`, with the Go zero value `default` in the absent case.
-/

set_option linter.unusedSectionVars false
set_option maxRecDepth 8000

namespace BFQ

/-- Go: `const minCapacity = 8`. -/
def minCapacity : Nat := 8

/-- Interpretation of a natural number as a signed 64-bit Go `int`:
reduce modulo `2 ^ 64` and pick the representative in
`[-2 ^ 63, 2 ^ 63)`.  Used to model the single point where
`nextPowerOfTwo` can overflow. -/
def toSigned64 (x : Nat) : Int :=
  if x % 2 ^ 64 < 2 ^ 63 then ((x % 2 ^ 64 : Nat) : Int)
  else ((x % 2 ^ 64 : Nat) : Int) - 2 ^ 64

/-- One bit-smearing step of `nextPowerOfTwo`; Go: `n |= n >> s`. -/
def orShift (m s : Nat) : Nat := m ||| (m >>> s)

/-- Embedding of Go `nextPowerOfTwo(n int) int`.  For `n ≥ 8` the Go code
computes `n--`, six smearing steps `n |= n >> s` for
`s = 1, 2, 4, 8, 16, 32`, then `n++`.  For every `int` input with
`8 ≤ n < 2 ^ 63` the intermediate values stay inside `[7, 2 ^ 63)`, where
Go's signed operations coincide with the `Nat` operations used here; the
final increment is the only step that can overflow and is wrapped by
`toSigned64`. -/
def nextPowerOfTwo (n : Int) : Int :=
  if n < (minCapacity : Int) then (minCapacity : Int)
  else
    toSigned64
      (orShift (orShift (orShift (orShift (orShift (orShift (n - 1).toNat 1) 2) 4) 8) 16) 32 + 1)

/-- Embedding of the Go struct `Queue[T]`: backing array, front cursor,
back cursor, element count.  The capacity is `arr.length`. -/
structure Queue (T : Type) where
  arr : List T
  front : Nat
  back : Nat
  length : Nat

variable {T : Type} [Inhabited T]

/-- Go: `NewQueue[T]()` — empty queue whose buffer has the minimum
capacity. -/
def NewQueue (T : Type) [Inhabited T] : Queue T :=
  { arr := List.replicate minCapacity default, front := 0, back := 0, length := 0 }

/-- Go built-in `copy(dst, src)`: overwrite the first
`min dst.length src.length` entries of `dst` with those of `src`; the
result has the length of `dst`. -/
def goCopy (dst src : List T) : List T :=
  src.take dst.length ++ dst.drop (min dst.length src.length)

/-- Embedding of Go `FromSlice(slice)`.  Note that `back` is set to the
unmasked `len(slice)`, exactly as in the source.  Go's
`make([]T, size)` panics when `size` is negative (which happens only for
slice lengths above `2 ^ 62`, where `nextPowerOfTwo` overflows); `Int.toNat`
is exercised on non-negative sizes in every theorem below. -/
def FromSlice (slice : List T) : Queue T :=
  let size := (nextPowerOfTwo (slice.length : Int)).toNat
  { arr := goCopy (List.replicate size default) slice,
    front := 0, back := slice.length, length := slice.length }

namespace Queue

/-- Go: `Len()`. -/
def Len (q : Queue T) : Nat := q.length

/-- Go: `IsEmpty()`. -/
def IsEmpty (q : Queue T) : Bool := q.length == 0

/-- Embedding of Go `resize(size)`: allocate a zeroed buffer of `size`
elements, copy the live elements to its front (one contiguous copy when
`front < back`, otherwise the wrapped-around two-part copy whose second
`copy` starts at the offset `n` returned by the first), then reset the
cursors. -/
def resize (q : Queue T) (size : Nat) : Queue T :=
  let newArr : List T := List.replicate size default
  let newArr :=
    if q.front < q.back then
      goCopy newArr ((q.arr.drop q.front).take (q.back - q.front))
    else
      let n := min newArr.length (q.arr.drop q.front).length
      let a1 := goCopy newArr (q.arr.drop q.front)
      a1.take n ++ goCopy (a1.drop n) (q.arr.take q.back)
  { arr := newArr, front := 0, back := q.length, length := q.length }

/-- Go `grow()`: double the capacity when the buffer is full. -/
def grow (q : Queue T) : Queue T :=
  if q.length = q.arr.length then q.resize (q.arr.length <<< 1) else q

/-- Go `shrink()`: halve the capacity when the occupancy has dropped to a
quarter and the count still exceeds the minimum capacity. -/
def shrink (q : Queue T) : Queue T :=
  if q.length > minCapacity ∧ q.length = q.arr.length >>> 2 then
    q.resize (q.arr.length >>> 1)
  else q

/-- Read through Go's raw accessor `indexUnsafe`: an unchecked element
read at `i`.  In bounds it returns the element; out of bounds the Go code
reads foreign memory (modelled by the default value). -/
def indexRawRead (q : Queue T) (i : Nat) : T := q.arr.getD i default

/-- Write through Go's raw accessor `indexUnsafe`: an unchecked element
write at `i`.  In bounds it stores the element; out of bounds the Go code
corrupts foreign memory (modelled as leaving the list unchanged, since the
backing store itself is not written). -/
def indexRawWrite (q : Queue T) (i : Nat) (v : T) : Queue T :=
  { q with arr := q.arr.set i v }

/-- Go `PushFront(v)`: grow if needed, retreat the front cursor with the
wraparound mask, raw-write at the new front, bump the count.  Go computes
`(front - 1 + len) & (len - 1)` on `int`; since `front - 1 + len ≥ 0`
whenever `len ≥ 1`, the `Nat` expression `front + len - 1` is the same
value. -/
def PushFront (q : Queue T) (v : T) : Queue T :=
  let q := q.grow
  let q := { q with front := (q.front + q.arr.length - 1) &&& (q.arr.length - 1) }
  let q := q.indexRawWrite q.front v
  { q with length := q.length + 1 }

/-- Go `PushBack(v)`: grow if needed, raw-write at the back cursor, then
advance the back cursor with the wraparound mask and bump the count. -/
def PushBack (q : Queue T) (v : T) : Queue T :=
  let q := q.grow
  let q := q.indexRawWrite q.back v
  { q with back := (q.back + 1) &&& (q.arr.length - 1), length := q.length + 1 }

/-- Go `PopFront()`: on an empty queue return the zero value and `false`;
otherwise raw-read at front, advance the front cursor with the wraparound
mask, decrement the count, and run the shrink policy. -/
def PopFront (q : Queue T) : (T × Bool) × Queue T :=
  if q.IsEmpty then ((default, false), q)
  else
    let v := q.indexRawRead q.front
    let q := { q with front := (q.front + 1) &&& (q.arr.length - 1),
                      length := q.length - 1 }
    ((v, true), q.shrink)

/-- Go `PopBack()`: on an empty queue return the zero value and `false`;
otherwise retreat the back cursor with the wraparound mask, raw-read at
the new back, decrement the count, and run the shrink policy. -/
def PopBack (q : Queue T) : (T × Bool) × Queue T :=
  if q.IsEmpty then ((default, false), q)
  else
    let b := (q.back + q.arr.length - 1) &&& (q.arr.length - 1)
    let v := q.indexRawRead b
    let q := { q with back := b, length := q.length - 1 }
    ((v, true), q.shrink)

/-- Go `Front()`: non-mutating peek at the front element. -/
def Front (q : Queue T) : T × Bool :=
  if q.IsEmpty then (default, false) else (q.indexRawRead q.front, true)

/-- Go `Back()`: non-mutating peek at the back element. -/
def Back (q : Queue T) : T × Bool :=
  if q.IsEmpty then (default, false)
  else (q.indexRawRead ((q.back + q.arr.length - 1) &&& (q.arr.length - 1)), true)

end Queue

/-- The logical front-to-back content of the queue: the element at slot
`(front + i) mod capacity` for each `i < length`. -/
def toList (q : Queue T) : List T :=
  (List.range q.length).map fun i => q.arr.getD ((q.front + i) % q.arr.length) default

/-- Pop from the front repeatedly (at most `fuel` times), collecting the
returned value/presence pairs; with `fuel = q.Len` this is exactly
"call `PopFront` until the deque is empty". -/
def drainFront (fuel : Nat) (q : Queue T) : List (T × Bool) × Queue T :=
  match fuel with
  | 0 => ([], q)
  | fuel + 1 =>
    if q.length = 0 then ([], q)
    else
      let r := q.PopFront
      let rest := drainFront fuel r.2
      (r.1 :: rest.1, rest.2)

/-- The public operations, for quantifying over arbitrary operation
sequences. -/
inductive Op (T : Type) where
  | pushFront (v : T)
  | pushBack (v : T)
  | popFront
  | popBack
  | front
  | back
  | len
  | isEmpty

/-- State transition of one public operation.  `Front`, `Back`, `Len` and
`IsEmpty` return values but do not mutate the queue. -/
def applyOp (q : Queue T) (op : Op T) : Queue T :=
  match op with
  | .pushFront v => q.PushFront v
  | .pushBack v => q.PushBack v
  | .popFront => q.PopFront.2
  | .popBack => q.PopBack.2
  | .front => q
  | .back => q
  | .len => q
  | .isEmpty => q

/-- Run a sequence of public operations. -/
def runOps (q : Queue T) (ops : List (Op T)) : Queue T := ops.foldl applyOp q

/-! ### List access toolkit -/

section ListLemmas

variable {α : Type} (d : α)

lemma getD_append (l₁ l₂ : List α) (i : Nat) :
    (l₁ ++ l₂).getD i d = if i < l₁.length then l₁.getD i d else l₂.getD (i - l₁.length) d := by
  by_cases h : i < l₁.length
  · simp [h, List.getElem?_append_left h]
  · simp only [h, if_false]
    simp [List.getElem?_append_right (Nat.le_of_not_lt h)]

lemma getD_take (l : List α) (n i : Nat) (h : i < n) :
    (l.take n).getD i d = l.getD i d := by
  simp [List.getElem?_take_of_lt h]

lemma getD_drop (l : List α) (n i : Nat) :
    (l.drop n).getD i d = l.getD (n + i) d := by
  simp [List.getElem?_drop]

lemma getD_replicate (n i : Nat) : (List.replicate n d).getD i d = d := by
  rcases Nat.lt_or_ge i n with h | h
  · simp [List.getElem?_replicate, h]
  · exact List.getD_eq_default _ _ (by simpa using h)

lemma getD_set_ne (l : List α) (i j : Nat) (a : α) (h : i ≠ j) :
    (l.set i a).getD j d = l.getD j d := by
  simp [List.getElem?_set_ne h]

lemma getD_set_self (l : List α) (i : Nat) (a : α) (h : i < l.length) :
    (l.set i a).getD i d = a := by
  simp [List.getElem?_set_self h]

/-- A list is the range-indexed map of its own entries. -/
lemma eq_range_map_getD (l : List α) :
    l = (List.range l.length).map fun i => l.getD i d := by
  apply List.ext_getElem (by simp)
  intro i h₁ h₂
  simp only [List.getElem_map, List.getElem_range]
  rw [List.getD_eq_getElem _ _ h₁]

lemma length_goCopy (dst src : List α) : (goCopy dst src).length = dst.length := by
  simp only [goCopy, List.length_append, List.length_take, List.length_drop]
  omega

lemma getD_goCopy (dst src : List α) (i : Nat) :
    (goCopy dst src).getD i d =
      if i < min dst.length src.length then src.getD i d else dst.getD i d := by
  unfold goCopy
  rw [getD_append]
  simp only [List.length_take]
  by_cases h : i < min dst.length src.length
  · rw [if_pos h, if_pos h, getD_take _ _ _ _ (by omega)]
  · rw [if_neg h, if_neg h, getD_drop]
    congr 1
    omega

end ListLemmas

/-! ### Arithmetic helpers -/

/-- The wraparound mask: for a power-of-two capacity, masking with
`capacity - 1` is reduction modulo the capacity. -/
lemma mask_eq_mod (x k : Nat) : x &&& (2 ^ k - 1) = x % 2 ^ k := by
  have := Nat.and_pow_two_sub_one_eq_mod x k
  omega

lemma three_le_of_eight_le_pow {k : Nat} (h : 8 ≤ 2 ^ k) : 3 ≤ k := by
  by_contra hk
  have : 2 ^ k ≤ 2 ^ 2 := Nat.pow_le_pow_right (by norm_num) (by omega)
  omega

lemma pow_shiftRight_two {k : Nat} (hk : 2 ≤ k) : (2 ^ k) >>> 2 = 2 ^ (k - 2) := by
  rw [Nat.shiftRight_eq_div_pow, Nat.pow_div hk (by norm_num)]

lemma pow_shiftRight_one {k : Nat} (hk : 1 ≤ k) : (2 ^ k) >>> 1 = 2 ^ (k - 1) := by
  rw [Nat.shiftRight_eq_div_pow, Nat.pow_div hk (by norm_num)]

lemma pow_shiftLeft_one (k : Nat) : (2 ^ k) <<< 1 = 2 ^ (k + 1) := by
  rw [Nat.shiftLeft_eq]
  ring

/-! ### Correctness of the bit-smearing in nextPowerOfTwo -/

/-- Intermediate smear state: `v` fits in `B` bits and its top `t` bits
(positions `B - t` up to `B - 1`) are all set. -/
def SmearGood (B t v : Nat) : Prop :=
  v < 2 ^ B ∧ ∀ i, B - t ≤ i → i < B → v.testBit i = true

lemma smearGood_init {m : Nat} (hm : 0 < m) : SmearGood (m.log2 + 1) 1 m := by
  constructor
  · exact Nat.lt_log2_self
  · intro i hi₁ hi₂
    have hi : i = m.log2 := by omega
    subst hi
    have h₁ : 2 ^ m.log2 ≤ m := Nat.log2_self_le (by omega)
    have h₂ : m < 2 ^ (m.log2 + 1) := Nat.lt_log2_self
    have hdiv : m / 2 ^ m.log2 = 1 := by
      have hpos : 0 < 2 ^ m.log2 := Nat.pos_pow_of_pos _ (by norm_num)
      have hlo : 1 ≤ m / 2 ^ m.log2 := (Nat.one_le_div_iff hpos).mpr h₁
      have hhi : m / 2 ^ m.log2 < 2 := by
        rw [Nat.div_lt_iff_lt_mul hpos]
        calc m < 2 ^ (m.log2 + 1) := h₂
        _ = 2 * 2 ^ m.log2 := by ring
      omega
    rw [Nat.testBit_to_div_mod, hdiv]
    decide

lemma smearGood_step (B t s v : Nat) (hs : s ≤ t) (h : SmearGood B t v) :
    SmearGood B (t + s) (orShift v s) := by
  obtain ⟨hlt, hbits⟩ := h
  constructor
  · exact Nat.or_lt_two_pow hlt
      (Nat.lt_of_le_of_lt (by rw [Nat.shiftRight_eq_div_pow]; exact Nat.div_le_self _ _) hlt)
  · intro i hi₁ hi₂
    rw [orShift, Nat.testBit_or, Nat.testBit_shiftRight]
    by_cases hcase : B - t ≤ i
    · rw [hbits i hcase hi₂]
      simp
    · rw [hbits (s + i) (by omega) (by omega)]
      simp

/-- After the six smearing steps, a positive `m` that fits in 64 bits
becomes the all-ones pattern of its bit width. -/
lemma smear_eq_ones {m : Nat} (hm : 0 < m) (h64 : m.log2 + 1 ≤ 64) :
    orShift (orShift (orShift (orShift (orShift (orShift m 1) 2) 4) 8) 16) 32 =
      2 ^ (m.log2 + 1) - 1 := by
  have h₁ := smearGood_step _ 1 1 _ (by norm_num) (smearGood_init hm)
  have h₂ := smearGood_step _ 2 2 _ (by norm_num) h₁
  have h₃ := smearGood_step _ 4 4 _ (by norm_num) h₂
  have h₄ := smearGood_step _ 8 8 _ (by norm_num) h₃
  have h₅ := smearGood_step _ 16 16 _ (by norm_num) h₄
  have h₆ := smearGood_step _ 32 32 _ (by norm_num) h₅
  obtain ⟨hlt, hbits⟩ := h₆
  apply Nat.eq_of_testBit_eq
  intro i
  rw [Nat.testBit_two_pow_sub_one]
  by_cases hi : i < m.log2 + 1
  · rw [hbits i (by omega) hi]
    simp [hi]
  · have hfalse : Nat.testBit
        (orShift (orShift (orShift (orShift (orShift (orShift m 1) 2) 4) 8) 16) 32) i = false := by
      apply Nat.testBit_lt_two_pow
      exact Nat.lt_of_lt_of_le hlt (Nat.pow_le_pow_right (by norm_num) (by omega))
    rw [hfalse]
    simp [hi]

lemma toSigned64_of_lt {x : Nat} (h : x < 2 ^ 63) : toSigned64 x = (x : Int) := by
  have h₁ : x % 2 ^ 64 = x := Nat.mod_eq_of_lt (by omega)
  rw [toSigned64, h₁, if_pos h]

/-- Value of `nextPowerOfTwo` on the representable non-degenerate range:
for `8 ≤ n ≤ 2 ^ 62` it is `2 ^ ((n - 1).log2 + 1)`, with no overflow. -/
lemma nextPowerOfTwo_eq_pow {n : Nat} (h8 : minCapacity ≤ n) (hle : n ≤ 2 ^ 62) :
    nextPowerOfTwo (n : Int) = ((2 ^ ((n - 1).log2 + 1) : Nat) : Int) := by
  have hnot : ¬ ((n : Int) < (minCapacity : Int)) := by
    simp only [minCapacity] at h8 ⊢
    omega
  rw [nextPowerOfTwo, if_neg hnot]
  have htn : ((n : Int) - 1).toNat = n - 1 := by omega
  rw [htn]
  have hm : 0 < n - 1 := by simp only [minCapacity] at h8; omega
  have hlog : (n - 1).log2 + 1 ≤ 62 := by
    have : (n - 1).log2 < 62 := by
      rw [Nat.log2_lt (by omega)]
      omega
    omega
  rw [smear_eq_ones hm (by omega)]
  have hones : 2 ^ ((n - 1).log2 + 1) - 1 + 1 = 2 ^ ((n - 1).log2 + 1) := by
    have : 0 < 2 ^ ((n - 1).log2 + 1) := Nat.pos_pow_of_pos _ (by norm_num)
    omega
  rw [hones]
  apply toSigned64_of_lt
  exact Nat.lt_of_le_of_lt (Nat.pow_le_pow_right (by norm_num) hlog)
    (by norm_num : (2 : Nat) ^ 62 < 2 ^ 63)

/-- Specification of `nextPowerOfTwo` as a `Nat` result: on
`8 ≤ n ≤ 2 ^ 62` it returns a power of two in `[n, 2 ^ 63)` that is the
smallest power of two at least `n`. -/
lemma nextPowerOfTwo_spec {n : Nat} (h8 : minCapacity ≤ n) (hle : n ≤ 2 ^ 62) :
    ∃ k : Nat, nextPowerOfTwo (n : Int) = ((2 ^ k : Nat) : Int) ∧
      n ≤ 2 ^ k ∧ 2 ^ k ≤ 2 ^ 63 ∧ (∀ j : Nat, n ≤ 2 ^ j → k ≤ j) := by
  refine ⟨(n - 1).log2 + 1, nextPowerOfTwo_eq_pow h8 hle, ?_, ?_, ?_⟩
  · have := @Nat.lt_log2_self (n - 1)
    have h1 : 1 ≤ n := by simp only [minCapacity] at h8; omega
    omega
  · apply Nat.pow_le_pow_right (by norm_num)
    have : (n - 1).log2 < 62 := by
      rw [Nat.log2_lt (by simp only [minCapacity] at h8; omega)]
      omega
    omega
  · intro j hj
    have hlow : 2 ^ (n - 1).log2 ≤ n - 1 :=
      Nat.log2_self_le (by simp only [minCapacity] at h8; omega)
    have : 2 ^ (n - 1).log2 < 2 ^ j := by
      have h1 : 1 ≤ n := by simp only [minCapacity] at h8; omega
      omega
    exact (Nat.pow_lt_pow_iff_right (by norm_num)).mp this

/-- On inputs below the minimum, `nextPowerOfTwo` returns the minimum
capacity. -/
lemma nextPowerOfTwo_small {n : Nat} (h : n < minCapacity) :
    nextPowerOfTwo (n : Int) = (minCapacity : Int) := by
  rw [nextPowerOfTwo, if_pos]
  simp only [minCapacity] at h ⊢
  omega

/-! ### The resize engine -/

lemma mod_two_cases {x n : Nat} (h : x < 2 * n) :
    x % n = if x < n then x else x - n := by
  by_cases hx : x < n
  · rw [if_pos hx, Nat.mod_eq_of_lt hx]
  · rw [if_neg hx, Nat.mod_eq_sub_mod (Nat.le_of_not_lt hx), Nat.mod_eq_of_lt (by omega)]

/-- In the contiguous case `front < back`, the cursor congruence forces
the live count to fit inside `[front, back)`. -/
lemma shape_lin {cap fr b len : Nat} (hfr : fr < cap) (hb : b ≤ cap) (hlen : len ≤ cap)
    (hcongr : b % cap = (fr + len) % cap) (hfb : fr < b) : len ≤ b - fr := by
  have h1 := mod_two_cases (show b < 2 * cap by omega)
  have h2 := mod_two_cases (show fr + len < 2 * cap by omega)
  rw [h1, h2] at hcongr
  split_ifs at hcongr <;> omega

/-- In the wrapped case `back ≤ front`, the cursor congruence forces the
live count to be either zero or exactly the wrapped span. -/
lemma shape_wrap {cap fr b len : Nat} (hfr : fr < cap) (hb : b ≤ cap) (hlen : len ≤ cap)
    (hcongr : b % cap = (fr + len) % cap) (hbf : b ≤ fr) :
    len = 0 ∨ len = cap - fr + b := by
  have h1 := mod_two_cases (show b < 2 * cap by omega)
  have h2 := mod_two_cases (show fr + len < 2 * cap by omega)
  rw [h1, h2] at hcongr
  split_ifs at hcongr <;> omega

lemma resize_front (q : Queue T) (size : Nat) : (q.resize size).front = 0 := rfl

lemma resize_back (q : Queue T) (size : Nat) : (q.resize size).back = q.length := rfl

lemma resize_length (q : Queue T) (size : Nat) : (q.resize size).length = q.length := rfl

lemma resize_arr_length (q : Queue T) (size : Nat) : (q.resize size).arr.length = size := by
  unfold Queue.resize
  by_cases hfb : q.front < q.back
  · simp only [if_pos hfb, length_goCopy, List.length_replicate]
  · simp only [if_neg hfb, List.length_append, List.length_take, List.length_drop,
      length_goCopy, List.length_replicate]
    omega

/-- The relocated buffer holds the old logical content at the front: slot
`i` of the new buffer is slot `(front + i) mod capacity` of the old one,
for every `i` below the live count. -/
lemma resize_arr_getD (q : Queue T) (size : Nat)
    (hfr : q.front < q.arr.length)
    (hb : q.back ≤ q.arr.length)
    (hlen : q.length ≤ q.arr.length)
    (hcongr : q.back % q.arr.length = (q.front + q.length) % q.arr.length)
    (hsize : q.length ≤ size)
    (i : Nat) (hi : i < q.length) :
    (q.resize size).arr.getD i default = q.arr.getD ((q.front + i) % q.arr.length) default := by
  unfold Queue.resize
  by_cases hfb : q.front < q.back
  · have hspan : q.length ≤ q.back - q.front := shape_lin hfr hb hlen hcongr hfb
    simp only [if_pos hfb]
    rw [getD_goCopy]
    have hslen : ((q.arr.drop q.front).take (q.back - q.front)).length = q.back - q.front := by
      simp only [List.length_take, List.length_drop]
      omega
    rw [if_pos (by simp only [hslen, List.length_replicate]; omega)]
    rw [getD_take _ _ _ _ (by omega), getD_drop]
    rw [Nat.mod_eq_of_lt (by omega)]
  · have hshape := shape_wrap hfr hb hlen hcongr (Nat.le_of_not_lt hfb)
    have hlenq : q.length = q.arr.length - q.front + q.back := by omega
    simp only [if_neg hfb, List.length_replicate, List.length_drop, length_goCopy]
    set n := min size (q.arr.length - q.front) with hn
    have hnval : n = q.arr.length - q.front := by
      rw [hn]
      omega
    rw [getD_append]
    simp only [List.length_take, length_goCopy, List.length_replicate]
    by_cases hcase : i < n
    · rw [if_pos (by omega)]
      rw [getD_take _ _ _ _ hcase, getD_goCopy]
      rw [if_pos (by simp only [List.length_replicate, List.length_drop]; omega)]
      rw [getD_drop]
      rw [Nat.mod_eq_of_lt (by omega)]
    · rw [if_neg (by omega)]
      rw [getD_goCopy]
      have htklen : (q.arr.take q.back).length = q.back := by
        simp only [List.length_take]
        omega
      rw [if_pos (by simp only [htklen, List.length_drop, length_goCopy,
        List.length_replicate]; omega)]
      rw [getD_take _ _ _ _ (by omega)]
      have hmod : (q.front + i) % q.arr.length = i - n := by
        rw [Nat.mod_eq_sub_mod (by omega), Nat.mod_eq_of_lt (by omega)]
        omega
      have hmin : n ⊓ size = n := by omega
      rw [hmod, hmin]

/-- The resize engine preserves the logical content. -/
lemma resize_toList (q : Queue T) (size : Nat)
    (hfr : q.front < q.arr.length)
    (hb : q.back ≤ q.arr.length)
    (hlen : q.length ≤ q.arr.length)
    (hcongr : q.back % q.arr.length = (q.front + q.length) % q.arr.length)
    (hsize : q.length ≤ size) :
    toList (q.resize size) = toList q := by
  unfold toList
  rw [resize_length, resize_front, resize_arr_length]
  apply List.map_congr_left
  intro i hi
  rw [List.mem_range] at hi
  rw [Nat.zero_add, Nat.mod_eq_of_lt (by omega)]
  exact resize_arr_getD q size hfr hb hlen hcongr hsize i hi

/-! ### Reachable-state invariants -/

/-- The weak invariant, satisfied by every reachable state — including
the states produced by the unmasked `back` of `FromSlice`, where the back
cursor may equal the capacity.  The capacity is a power of two at least
the minimum, the count fits, the front cursor is in range, the back
cursor is at most the capacity, and the cursors satisfy the circular
relation `back ≡ front + length (mod capacity)`. -/
structure InvW (q : Queue T) : Prop where
  pow : ∃ k, q.arr.length = 2 ^ k
  minCap : minCapacity ≤ q.arr.length
  len_le : q.length ≤ q.arr.length
  front_lt : q.front < q.arr.length
  back_le : q.back ≤ q.arr.length
  cur : q.back % q.arr.length = (q.front + q.length) % q.arr.length

/-- The strong invariant: additionally the back cursor is strictly in
range.  It holds for every state reachable from `NewQueue`. -/
def Inv (q : Queue T) : Prop := InvW q ∧ q.back < q.arr.length

lemma Inv.toInvW {q : Queue T} (h : Inv q) : InvW q := h.1

lemma Inv.back_eq {q : Queue T} (h : Inv q) :
    q.back = (q.front + q.length) % q.arr.length := by
  have := h.1.cur
  rwa [Nat.mod_eq_of_lt h.2] at this

lemma mask_cap {q : Queue T} {k : Nat} (hk : q.arr.length = 2 ^ k) (x : Nat) :
    x &&& (q.arr.length - 1) = x % q.arr.length := by
  rw [hk, mask_eq_mod]

lemma cap_pos {q : Queue T} (h : InvW q) : 0 < q.arr.length := by
  have := h.minCap
  simp only [minCapacity] at this
  omega

lemma add_mod_inj {n a i j : Nat} (hi : i < n) (hj : j < n)
    (h : (a + i) % n = (a + j) % n) : i = j := by
  have hij : i % n = j % n :=
    Nat.ModEq.add_left_cancel (Nat.ModEq.refl a) h
  rwa [Nat.mod_eq_of_lt hi, Nat.mod_eq_of_lt hj] at hij

lemma length_toList (q : Queue T) : (toList q).length = q.length := by
  simp [toList]

lemma inv_newQueue : Inv (NewQueue T) := by
  refine ⟨⟨⟨3, by simp [NewQueue, minCapacity]⟩, ?_, ?_, ?_, ?_, ?_⟩, ?_⟩ <;>
    simp [NewQueue, minCapacity]

lemma toList_newQueue : toList (NewQueue T) = [] := by
  simp [toList, NewQueue]

lemma fromSlice_arr_length {S : List T} :
    (FromSlice S).arr.length = (nextPowerOfTwo (S.length : Int)).toNat := by
  simp [FromSlice, length_goCopy]

lemma fromSlice_size {S : List T} (h : S.length ≤ 2 ^ 62) :
    ∃ k : Nat, (FromSlice S).arr.length = 2 ^ k ∧ minCapacity ≤ 2 ^ k ∧
      S.length ≤ 2 ^ k := by
  rw [fromSlice_arr_length]
  by_cases hs : S.length < minCapacity
  · refine ⟨3, ?_, by norm_num [minCapacity], ?_⟩
    · rw [nextPowerOfTwo_small hs]
      simp [minCapacity]
    · simp only [minCapacity] at hs
      norm_num
      omega
  · obtain ⟨k, hval, hge, _, _⟩ := nextPowerOfTwo_spec (Nat.le_of_not_lt hs) h
    refine ⟨k, by rw [hval]; exact Int.toNat_natCast _,
      Nat.le_trans (Nat.le_of_not_lt hs) hge, hge⟩

lemma invW_fromSlice {S : List T} (h : S.length ≤ 2 ^ 62) : InvW (FromSlice S) := by
  obtain ⟨k, hk, hmin, hle⟩ := fromSlice_size (S := S) h
  refine ⟨⟨k, hk⟩, hk ▸ hmin, ?_, ?_, ?_, ?_⟩
  · show S.length ≤ _
    omega
  · show 0 < _
    simp only [minCapacity] at hmin
    omega
  · show S.length ≤ _
    omega
  · show S.length % _ = (0 + S.length) % _
    rw [Nat.zero_add]

lemma toList_fromSlice {S : List T} (h : S.length ≤ 2 ^ 62) : toList (FromSlice S) = S := by
  obtain ⟨k, hk, hmin, hle⟩ := fromSlice_size (S := S) h
  unfold toList
  have hfr : (FromSlice S).front = 0 := rfl
  have hlen : (FromSlice S).length = S.length := rfl
  rw [hfr, hlen]
  conv_rhs => rw [eq_range_map_getD default S]
  apply List.map_congr_left
  intro i hi
  rw [List.mem_range] at hi
  rw [Nat.zero_add, Nat.mod_eq_of_lt (by omega)]
  show (goCopy (List.replicate _ default) S).getD i default = S.getD i default
  rw [getD_goCopy]
  rw [if_pos]
  simp only [List.length_replicate]
  rw [fromSlice_arr_length] at hk
  omega

/-- The growth policy preserves the invariant and the content, and
guarantees a free slot afterwards; it also preserves strictness of the
back cursor. -/
lemma grow_spec (q : Queue T) (h : InvW q) :
    InvW q.grow ∧ q.grow.length = q.length ∧ q.grow.length < q.grow.arr.length ∧
      toList q.grow = toList q ∧
      (q.back < q.arr.length → q.grow.back < q.grow.arr.length) := by
  obtain ⟨k, hk⟩ := h.pow
  unfold Queue.grow
  by_cases hfull : q.length = q.arr.length
  · rw [if_pos hfull]
    have hsz : q.arr.length <<< 1 = 2 ^ (k + 1) := by rw [hk, pow_shiftLeft_one]
    have hlt : q.length < q.arr.length <<< 1 := by
      rw [hsz, hfull, hk]
      exact Nat.pow_lt_pow_right (by norm_num) (by omega)
    refine ⟨⟨⟨k + 1, by rw [resize_arr_length, hsz]⟩, ?_, ?_, ?_, ?_, ?_⟩, ?_, ?_, ?_, ?_⟩
    · rw [resize_arr_length, hsz]
      exact Nat.le_trans (hk ▸ h.minCap) (Nat.pow_le_pow_right (by norm_num) (by omega))
    · rw [resize_arr_length, resize_length]
      omega
    · rw [resize_arr_length, resize_front]
      have := cap_pos h
      omega
    · rw [resize_arr_length, resize_back]
      omega
    · rw [resize_back, resize_front, resize_length, Nat.zero_add]
    · rw [resize_length]
    · rw [resize_length, resize_arr_length]
      omega
    · exact resize_toList q _ h.front_lt h.back_le h.len_le h.cur (by omega)
    · intro _
      rw [resize_back, resize_arr_length]
      omega
  · rw [if_neg hfull]
    exact ⟨h, rfl, by have := h.len_le; omega, rfl, fun hb => hb⟩

/-- The shrink policy preserves the invariant, the content and the count;
it either leaves the capacity alone or — only when the capacity was at
least 64 — halves it.  It also preserves strictness of the back
cursor. -/
lemma shrink_spec (q : Queue T) (h : InvW q) :
    InvW q.shrink ∧ q.shrink.length = q.length ∧ toList q.shrink = toList q ∧
      (q.shrink.arr.length = q.arr.length ∨
        (64 ≤ q.arr.length ∧ q.shrink.arr.length = q.arr.length >>> 1)) ∧
      (q.back < q.arr.length → q.shrink.back < q.shrink.arr.length) := by
  obtain ⟨k, hk⟩ := h.pow
  have hk3 : 3 ≤ k := three_le_of_eight_le_pow (by rw [← hk]; exact h.minCap)
  unfold Queue.shrink
  by_cases hcond : q.length > minCapacity ∧ q.length = q.arr.length >>> 2
  · rw [if_pos hcond]
    obtain ⟨hgt, hquarter⟩ := hcond
    have hq : q.arr.length >>> 2 = 2 ^ (k - 2) := by rw [hk, pow_shiftRight_two (by omega)]
    have hk6 : 6 ≤ k := by
      have h8 : (2 : Nat) ^ 3 < 2 ^ (k - 2) := by
        rw [← hq, ← hquarter]
        simpa [minCapacity] using hgt
      have := (Nat.pow_lt_pow_iff_right (by norm_num : 1 < 2)).mp h8
      omega
    have hh : q.arr.length >>> 1 = 2 ^ (k - 1) := by rw [hk, pow_shiftRight_one (by omega)]
    have hlen₂ : q.length ≤ q.arr.length >>> 1 := by
      rw [hh, hquarter, hq]
      exact Nat.pow_le_pow_right (by norm_num) (by omega)
    have hlenlt : q.length < q.arr.length >>> 1 := by
      rw [hh, hquarter, hq]
      exact Nat.pow_lt_pow_right (by norm_num) (by omega)
    refine ⟨⟨⟨k - 1, by rw [resize_arr_length, hh]⟩, ?_, ?_, ?_, ?_, ?_⟩, ?_, ?_, ?_, ?_⟩
    · rw [resize_arr_length, hh]
      calc minCapacity ≤ 2 ^ 5 := by norm_num [minCapacity]
      _ ≤ 2 ^ (k - 1) := Nat.pow_le_pow_right (by norm_num) (by omega)
    · rw [resize_arr_length, resize_length]
      exact hlen₂
    · rw [resize_arr_length, resize_front, hh]
      exact Nat.pos_pow_of_pos _ (by norm_num)
    · rw [resize_arr_length, resize_back]
      exact hlen₂
    · rw [resize_back, resize_front, resize_length, Nat.zero_add]
    · rw [resize_length]
    · exact resize_toList q _ h.front_lt h.back_le h.len_le h.cur hlen₂
    · right
      constructor
      · rw [hk]
        calc (64 : Nat) = 2 ^ 6 := by norm_num
        _ ≤ 2 ^ k := Nat.pow_le_pow_right (by norm_num) hk6
      · rw [resize_arr_length]
    · intro _
      rw [resize_back, resize_arr_length]
      exact hlenlt
  · rw [if_neg hcond]
    exact ⟨h, rfl, rfl, Or.inl rfl, fun hb => hb⟩

/-! ### The four mutating operations -/

lemma isEmpty_false {q : Queue T} (hne : 0 < q.length) : q.IsEmpty = false := by
  simp [Queue.IsEmpty]
  omega

lemma popFront_eq (q : Queue T) (hne : 0 < q.length) :
    q.PopFront = ((q.arr.getD q.front default, true),
      Queue.shrink { q with front := (q.front + 1) &&& (q.arr.length - 1),
                            length := q.length - 1 }) := by
  unfold Queue.PopFront
  rw [isEmpty_false hne]
  simp only [Bool.false_eq_true, if_false]
  rfl

lemma popBack_eq (q : Queue T) (hne : 0 < q.length) :
    q.PopBack = ((q.arr.getD ((q.back + q.arr.length - 1) &&& (q.arr.length - 1)) default, true),
      Queue.shrink { q with back := (q.back + q.arr.length - 1) &&& (q.arr.length - 1),
                            length := q.length - 1 }) := by
  unfold Queue.PopBack
  rw [isEmpty_false hne]
  simp only [Bool.false_eq_true, if_false]
  rfl

lemma pushBack_eq (q : Queue T) (v : T) :
    Queue.PushBack q v =
      { arr := q.grow.arr.set q.grow.back v,
        front := q.grow.front,
        back := (q.grow.back + 1) &&& ((q.grow.arr.set q.grow.back v).length - 1),
        length := q.grow.length + 1 } := rfl

lemma pushFront_eq (q : Queue T) (v : T) :
    Queue.PushFront q v =
      { arr := q.grow.arr.set ((q.grow.front + q.grow.arr.length - 1) &&&
                 (q.grow.arr.length - 1)) v,
        front := (q.grow.front + q.grow.arr.length - 1) &&& (q.grow.arr.length - 1),
        back := q.grow.back,
        length := q.grow.length + 1 } := rfl

/-- `PopFront` on a non-empty queue: it returns the logical head with
`present = true`, removes it, keeps the invariant, and touches the
capacity only through a shrink that requires capacity at least 64. -/
lemma popFront_spec (q : Queue T) (h : InvW q) (hne : 0 < q.length) :
    (q.PopFront).1 = (q.arr.getD q.front default, true) ∧
    InvW (q.PopFront).2 ∧
    (q.PopFront).2.length = q.length - 1 ∧
    toList q = (q.PopFront).1.1 :: toList (q.PopFront).2 ∧
    ((q.PopFront).2.arr.length = q.arr.length ∨
      (64 ≤ q.arr.length ∧ (q.PopFront).2.arr.length = q.arr.length >>> 1)) := by
  obtain ⟨k, hk⟩ := h.pow
  have hcpos := cap_pos h
  rw [popFront_eq q hne]
  set q₂ : Queue T :=
    { q with front := (q.front + 1) &&& (q.arr.length - 1), length := q.length - 1 } with hq₂
  have hfr₂ : q₂.front = (q.front + 1) % q.arr.length := mask_cap hk _
  have harr₂ : q₂.arr = q.arr := rfl
  have hlen₂ : q₂.length = q.length - 1 := rfl
  have hinv₂ : InvW q₂ := by
    refine ⟨⟨k, hk⟩, h.minCap, by rw [hlen₂]; show _ ≤ q.arr.length; have := h.len_le; omega,
      ?_, h.back_le, ?_⟩
    · show q₂.front < q.arr.length
      rw [hfr₂]
      exact Nat.mod_lt _ hcpos
    · show q.back % q.arr.length = (q₂.front + q₂.length) % q.arr.length
      rw [hfr₂, hlen₂, Nat.mod_add_mod, h.cur]
      congr 1
      omega
  have hcons : toList q = q.arr.getD q.front default :: toList q₂ := by
    unfold toList
    rw [harr₂, hlen₂, hfr₂]
    have hlen : q.length = (q.length - 1) + 1 := by omega
    conv_lhs => rw [hlen, List.range_succ_eq_map, List.map_cons, List.map_map]
    congr 1
    · rw [Nat.add_zero, Nat.mod_eq_of_lt h.front_lt]
    · apply List.map_congr_left
      intro i hi
      simp only [Function.comp]
      rw [Nat.mod_add_mod]
      congr 2
      omega
  obtain ⟨hs₁, hs₂, hs₃, hs₄, _⟩ := shrink_spec q₂ hinv₂
  refine ⟨rfl, hs₁, by rw [hs₂, hlen₂], ?_, ?_⟩
  · rw [hcons, hs₃]
  · rw [harr₂] at hs₄
    exact hs₄

/-- `PopBack` on a non-empty queue: it removes one element, keeps the
invariant, and touches the capacity only through a shrink that requires
capacity at least 64. -/
lemma popBack_spec (q : Queue T) (h : InvW q) (hne : 0 < q.length) :
    InvW (q.PopBack).2 ∧
    (q.PopBack).2.length = q.length - 1 ∧
    ((q.PopBack).2.arr.length = q.arr.length ∨
      (64 ≤ q.arr.length ∧ (q.PopBack).2.arr.length = q.arr.length >>> 1)) := by
  obtain ⟨k, hk⟩ := h.pow
  have hcpos := cap_pos h
  rw [popBack_eq q hne]
  set q₂ : Queue T :=
    { q with back := (q.back + q.arr.length - 1) &&& (q.arr.length - 1),
             length := q.length - 1 } with hq₂
  have hb₂ : q₂.back = (q.back + q.arr.length - 1) % q.arr.length := mask_cap hk _
  have hlen₂ : q₂.length = q.length - 1 := rfl
  have hinv₂ : InvW q₂ := by
    refine ⟨⟨k, hk⟩, h.minCap, by rw [hlen₂]; show _ ≤ q.arr.length; have := h.len_le; omega,
      h.front_lt, ?_, ?_⟩
    · show q₂.back ≤ q.arr.length
      rw [hb₂]
      exact Nat.le_of_lt (Nat.mod_lt _ hcpos)
    · show q₂.back % q.arr.length = (q.front + q₂.length) % q.arr.length
      rw [hb₂, hlen₂, Nat.mod_mod_of_dvd _ dvd_rfl]
      have hsplit : q.back + q.arr.length - 1 = q.back + (q.arr.length - 1) := by omega
      rw [hsplit, ← Nat.mod_add_mod, h.cur, Nat.mod_add_mod]
      have hjoin : q.front + q.length + (q.arr.length - 1) =
          (q.front + (q.length - 1)) + q.arr.length := by omega
      rw [hjoin, Nat.add_mod_right]
  obtain ⟨hs₁, hs₂, _, hs₄, _⟩ := shrink_spec q₂ hinv₂
  exact ⟨hs₁, by rw [hs₂, hlen₂], hs₄⟩

/-- `PushBack` under the strong invariant (reachable from `NewQueue`):
it appends the value to the logical content and preserves the strong
invariant. -/
lemma pushBack_spec (q : Queue T) (v : T) (h : Inv q) :
    Inv (Queue.PushBack q v) ∧ (Queue.PushBack q v).length = q.length + 1 ∧
      toList (Queue.PushBack q v) = toList q ++ [v] := by
  obtain ⟨hg, hglen, hgroom, hgtoList, hgback⟩ := grow_spec q h.1
  obtain ⟨k, hk⟩ := hg.pow
  have hgstrong : Inv q.grow := ⟨hg, hgback h.2⟩
  have hgb : q.grow.back = (q.grow.front + q.grow.length) % q.grow.arr.length :=
    hgstrong.back_eq
  have hcpos := cap_pos hg
  rw [pushBack_eq q v]
  set r : Queue T :=
    { arr := q.grow.arr.set q.grow.back v,
      front := q.grow.front,
      back := (q.grow.back + 1) &&& ((q.grow.arr.set q.grow.back v).length - 1),
      length := q.grow.length + 1 } with hrdef
  have hrcap : r.arr.length = q.grow.arr.length := List.length_set _ _ _
  have hrb : r.back = (q.grow.back + 1) % q.grow.arr.length := by
    show (q.grow.back + 1) &&& ((q.grow.arr.set q.grow.back v).length - 1) = _
    rw [List.length_set, hk, mask_eq_mod, ← hk]
  have hinvr : InvW r := by
    refine ⟨⟨k, by rw [hrcap, hk]⟩, ?_, ?_, ?_, ?_, ?_⟩
    · rw [hrcap]
      exact hg.minCap
    · show q.grow.length + 1 ≤ r.arr.length
      rw [hrcap]
      omega
    · show q.grow.front < r.arr.length
      rw [hrcap]
      exact hg.front_lt
    · rw [hrb, hrcap]
      exact Nat.le_of_lt (Nat.mod_lt _ hcpos)
    · show r.back % r.arr.length = (q.grow.front + (q.grow.length + 1)) % r.arr.length
      rw [hrb, hrcap, Nat.mod_mod_of_dvd _ dvd_rfl,
        hgb, Nat.mod_add_mod]
      congr 1
  have hrtoList : toList r = toList q.grow ++ [v] := by
    unfold toList
    have hrlen : r.length = q.grow.length + 1 := rfl
    have hrarr : r.arr = q.grow.arr.set q.grow.back v := rfl
    have hrfr : r.front = q.grow.front := rfl
    rw [hrlen, hrarr, hrfr]
    simp only [List.length_set]
    rw [List.range_succ, List.map_append, List.map_cons, List.map_nil]
    congr 1
    · apply List.map_congr_left
      intro i hi
      rw [List.mem_range] at hi
      apply getD_set_ne
      intro hcontra
      rw [hgb] at hcontra
      have heq : q.grow.length = i := add_mod_inj hgroom (Nat.lt_trans hi hgroom) hcontra
      omega
    · rw [← hgb, getD_set_self _ _ _ _ hgstrong.2]
  refine ⟨⟨hinvr, ?_⟩, ?_, ?_⟩
  · rw [hrb, hrcap]
    exact Nat.mod_lt _ hcpos
  · show q.grow.length + 1 = q.length + 1
    omega
  · rw [hrtoList, hgtoList]

/-- `PushBack` preserves the weak invariant even from the weird
`FromSlice` states where the back cursor equals the capacity. -/
lemma pushBack_invW (q : Queue T) (v : T) (h : InvW q) :
    InvW (Queue.PushBack q v) ∧ (Queue.PushBack q v).length = q.length + 1 := by
  obtain ⟨hg, hglen, hgroom, _, _⟩ := grow_spec q h
  obtain ⟨k, hk⟩ := hg.pow
  have hcpos := cap_pos hg
  rw [pushBack_eq q v]
  set r : Queue T :=
    { arr := q.grow.arr.set q.grow.back v,
      front := q.grow.front,
      back := (q.grow.back + 1) &&& ((q.grow.arr.set q.grow.back v).length - 1),
      length := q.grow.length + 1 } with hrdef
  have hrcap : r.arr.length = q.grow.arr.length := List.length_set _ _ _
  have hrb : r.back = (q.grow.back + 1) % q.grow.arr.length := by
    show (q.grow.back + 1) &&& ((q.grow.arr.set q.grow.back v).length - 1) = _
    rw [List.length_set, hk, mask_eq_mod, ← hk]
  refine ⟨⟨⟨k, by rw [hrcap, hk]⟩, ?_, ?_, ?_, ?_, ?_⟩, ?_⟩
  · rw [hrcap]
    exact hg.minCap
  · show q.grow.length + 1 ≤ r.arr.length
    rw [hrcap]
    omega
  · show q.grow.front < r.arr.length
    rw [hrcap]
    exact hg.front_lt
  · rw [hrb, hrcap]
    exact Nat.le_of_lt (Nat.mod_lt _ hcpos)
  · show r.back % r.arr.length = (q.grow.front + (q.grow.length + 1)) % r.arr.length
    rw [hrb, hrcap, Nat.mod_mod_of_dvd _ dvd_rfl,
      ← Nat.mod_add_mod, hg.cur, Nat.mod_add_mod]
    congr 1
  · show q.grow.length + 1 = q.length + 1
    omega

/-- `PushFront` preserves the weak invariant. -/
lemma pushFront_invW (q : Queue T) (v : T) (h : InvW q) :
    InvW (Queue.PushFront q v) ∧ (Queue.PushFront q v).length = q.length + 1 := by
  obtain ⟨hg, hglen, hgroom, _, _⟩ := grow_spec q h
  obtain ⟨k, hk⟩ := hg.pow
  have hcpos := cap_pos hg
  rw [pushFront_eq q v]
  set f : Nat := (q.grow.front + q.grow.arr.length - 1) &&& (q.grow.arr.length - 1) with hfdef
  have hf : f = (q.grow.front + q.grow.arr.length - 1) % q.grow.arr.length := by
    rw [hfdef, hk, mask_eq_mod, ← hk]
  set r : Queue T :=
    { arr := q.grow.arr.set f v, front := f, back := q.grow.back,
      length := q.grow.length + 1 } with hrdef
  have hrcap : r.arr.length = q.grow.arr.length := List.length_set _ _ _
  refine ⟨⟨⟨k, by rw [hrcap, hk]⟩, ?_, ?_, ?_, ?_, ?_⟩, ?_⟩
  · rw [hrcap]
    exact hg.minCap
  · show q.grow.length + 1 ≤ r.arr.length
    rw [hrcap]
    omega
  · show f < r.arr.length
    rw [hrcap, hf]
    exact Nat.mod_lt _ hcpos
  · show q.grow.back ≤ r.arr.length
    rw [hrcap]
    exact hg.back_le
  · show q.grow.back % r.arr.length = (f + (q.grow.length + 1)) % r.arr.length
    rw [hrcap, hf, Nat.mod_add_mod]
    have harith : q.grow.front + q.grow.arr.length - 1 + (q.grow.length + 1) =
        (q.grow.front + q.grow.length) + q.grow.arr.length := by omega
    rw [harith, Nat.add_mod_right, ← hg.cur]
  · show q.grow.length + 1 = q.length + 1
    omega

/-! ### Empty-queue behaviour of the read/remove operations -/

lemma isEmpty_true {q : Queue T} (h : q.length = 0) : q.IsEmpty = true := by
  simp [Queue.IsEmpty, h]

lemma popFront_empty (q : Queue T) (h : q.length = 0) :
    q.PopFront = ((default, false), q) := by
  unfold Queue.PopFront
  rw [isEmpty_true h, if_pos rfl]

lemma popBack_empty (q : Queue T) (h : q.length = 0) :
    q.PopBack = ((default, false), q) := by
  unfold Queue.PopBack
  rw [isEmpty_true h, if_pos rfl]

lemma front_empty (q : Queue T) (h : q.length = 0) : q.Front = (default, false) := by
  unfold Queue.Front
  rw [isEmpty_true h, if_pos rfl]

lemma back_empty (q : Queue T) (h : q.length = 0) : q.Back = (default, false) := by
  unfold Queue.Back
  rw [isEmpty_true h, if_pos rfl]

/-! ### Reachability -/

lemma invW_applyOp (q : Queue T) (op : Op T) (h : InvW q) : InvW (applyOp q op) := by
  cases op with
  | pushFront v => exact (pushFront_invW q v h).1
  | pushBack v => exact (pushBack_invW q v h).1
  | popFront =>
    show InvW (q.PopFront).2
    by_cases hne : 0 < q.length
    · exact (popFront_spec q h hne).2.1
    · rw [popFront_empty q (by omega)]
      exact h
  | popBack =>
    show InvW (q.PopBack).2
    by_cases hne : 0 < q.length
    · exact (popBack_spec q h hne).1
    · rw [popBack_empty q (by omega)]
      exact h
  | front => exact h
  | back => exact h
  | len => exact h
  | isEmpty => exact h

/-- Every state reached by running public operations from a state
satisfying the weak invariant satisfies the weak invariant. -/
lemma invW_runOps (ops : List (Op T)) (q : Queue T) (h : InvW q) : InvW (runOps q ops) := by
  induction ops generalizing q with
  | nil => exact h
  | cons op ops ih =>
    rw [runOps, List.foldl_cons]
    exact ih _ (invW_applyOp q op h)

lemma toList_eq_nil {q : Queue T} (h : q.length = 0) : toList q = [] := by
  simp [toList, h]

/-- Draining with enough fuel returns every element of the logical
content in order, each tagged `present = true`, and ends on an empty
queue. -/
lemma drainFront_spec (n : Nat) : ∀ q : Queue T, InvW q → q.length ≤ n →
    (drainFront n q).1 = (toList q).map (fun v => (v, true)) ∧
      (drainFront n q).2.length = 0 := by
  induction n with
  | zero =>
    intro q h hle
    have h0 : q.length = 0 := by omega
    rw [drainFront, toList_eq_nil h0]
    exact ⟨rfl, h0⟩
  | succ n ih =>
    intro q h hle
    by_cases h0 : q.length = 0
    · rw [drainFront, if_pos h0, toList_eq_nil h0]
      exact ⟨rfl, h0⟩
    · have hne : 0 < q.length := by omega
      obtain ⟨hret, hinv₂, hlen₂, hcons, _⟩ := popFront_spec q h hne
      obtain ⟨hrec₁, hrec₂⟩ := ih (q.PopFront).2 hinv₂ (by omega)
      rw [drainFront, if_neg h0]
      refine ⟨?_, hrec₂⟩
      show q.PopFront.1 :: (drainFront n q.PopFront.2).1 = _
      rw [hrec₁, hcons, List.map_cons]
      congr 1
      rw [hret]

/-- Pushing a list of values at the back, starting from any state with
the strong invariant, appends them to the logical content. -/
lemma foldl_pushBack (V : List T) : ∀ q : Queue T, Inv q →
    Inv (V.foldl Queue.PushBack q) ∧
      toList (V.foldl Queue.PushBack q) = toList q ++ V := by
  induction V with
  | nil =>
    intro q h
    exact ⟨h, by simp⟩
  | cons v V ih =>
    intro q h
    obtain ⟨hinv, _, htl⟩ := pushBack_spec q v h
    obtain ⟨hinv₂, htl₂⟩ := ih (Queue.PushBack q v) hinv
    rw [List.foldl_cons]
    refine ⟨hinv₂, ?_⟩
    rw [htl₂, htl]
    simp

/-- Capacity change of one shrink step, for an arbitrary state: the
capacity is halved exactly when the count exceeds the minimum capacity
and equals a quarter of the capacity, and is untouched otherwise. -/
lemma shrink_arr_length (q : Queue T) :
    q.shrink.arr.length =
      if minCapacity < q.length ∧ q.length = q.arr.length / 4 then q.arr.length / 2
      else q.arr.length := by
  have h4 : q.arr.length >>> 2 = q.arr.length / 4 := by
    rw [Nat.shiftRight_eq_div_pow]
  have h2 : q.arr.length >>> 1 = q.arr.length / 2 := by
    rw [Nat.shiftRight_eq_div_pow]
  unfold Queue.shrink
  by_cases hcond : minCapacity < q.length ∧ q.length = q.arr.length / 4
  · rw [if_pos (by rw [h4]; exact hcond), resize_arr_length, if_pos hcond, h2]
  · rw [if_neg (by rw [h4]; exact hcond), if_neg hcond]

/-! ### The claims -/

/-- Claim C1: for every finite sequence `S` (empty included, and within
the representable slice lengths `|S| ≤ 2 ^ 62` of the 64-bit capacity
computation), building the deque with `FromSlice S` and then popping from
the front until empty returns exactly the elements of `S`, in order, each
with `present = true`, and ends with `IsEmpty() = true`. -/
theorem C1_fromSlice_roundtrip {T : Type} [Inhabited T] (S : List T)
    (hS : S.length ≤ 2 ^ 62) :
    (drainFront (FromSlice S).Len (FromSlice S)).1 = S.map (fun v => (v, true)) ∧
    (drainFront (FromSlice S).Len (FromSlice S)).2.IsEmpty = true := by
  have hinv := invW_fromSlice hS
  obtain ⟨h1, h2⟩ := drainFront_spec (FromSlice S).Len (FromSlice S) hinv (Nat.le_refl _)
  refine ⟨?_, isEmpty_true h2⟩
  rw [h1, toList_fromSlice hS]

theorem C1_fromSlice_roundtrip_witness :
    ([3, 1, 2] : List Nat).length ≤ 2 ^ 62 ∧
    ((drainFront (FromSlice ([3, 1, 2] : List Nat)).Len (FromSlice ([3, 1, 2] : List Nat))).1 =
        ([3, 1, 2] : List Nat).map (fun v => (v, true)) ∧
      (drainFront (FromSlice ([3, 1, 2] : List Nat)).Len
          (FromSlice ([3, 1, 2] : List Nat))).2.IsEmpty = true) :=
  ⟨by decide, C1_fromSlice_roundtrip [3, 1, 2] (by decide)⟩

/-- Claim C2: every state reachable from `NewQueue` or from
`FromSlice S` by any sequence of public operations has a capacity that is
a power of two at least the minimum capacity 8, and a count between 0 and
the capacity. -/
theorem C2_capacity_invariant {T : Type} [Inhabited T] (S : List T)
    (hS : S.length ≤ 2 ^ 62) (init : Queue T)
    (hinit : init = NewQueue T ∨ init = FromSlice S) (ops : List (Op T)) :
    (∃ k, (runOps init ops).arr.length = 2 ^ k) ∧
    minCapacity ≤ (runOps init ops).arr.length ∧
    (runOps init ops).length ≤ (runOps init ops).arr.length := by
  have hinv : InvW init := by
    rcases hinit with h | h
    · rw [h]
      exact inv_newQueue.1
    · rw [h]
      exact invW_fromSlice hS
  have h := invW_runOps ops init hinv
  exact ⟨h.pow, h.minCap, h.len_le⟩

theorem C2_capacity_invariant_witness :
    (([] : List Nat).length ≤ 2 ^ 62 ∧
      (NewQueue Nat = NewQueue Nat ∨ NewQueue Nat = FromSlice ([] : List Nat))) ∧
    ((∃ k, (runOps (NewQueue Nat) [Op.pushBack 5, Op.popFront]).arr.length = 2 ^ k) ∧
      minCapacity ≤ (runOps (NewQueue Nat) [Op.pushBack 5, Op.popFront]).arr.length ∧
      (runOps (NewQueue Nat) [Op.pushBack 5, Op.popFront]).length ≤
        (runOps (NewQueue Nat) [Op.pushBack 5, Op.popFront]).arr.length) :=
  ⟨⟨by decide, Or.inl rfl⟩,
    C2_capacity_invariant [] (by decide) (NewQueue Nat) (Or.inl rfl)
      [Op.pushBack 5, Op.popFront]⟩

/-- Claim C3 fails on the code: `FromSlice` stores the unmasked slice
length in `back`, so for a slice of length 8 (a power of two at and above
the minimum) the reachable initial state has `back = 8 = capacity`,
outside the claimed range `[0, capacity)`. -/
theorem C3_back_out_of_range :
    (FromSlice (List.replicate 8 (0 : Nat))).back = 8 ∧
    (FromSlice (List.replicate 8 (0 : Nat))).arr.length = 8 ∧
    ¬ (FromSlice (List.replicate 8 (0 : Nat))).back <
        (FromSlice (List.replicate 8 (0 : Nat))).arr.length := by
  decide

/-- Claim C4 fails on the code: on a slice of length 8 the code sets
`back = 8` while the claimed masked value `8 AND (capacity - 1)` is 0;
the other three fields match the claim. -/
theorem C4_fromSlice_fields :
    (FromSlice (List.replicate 8 (0 : Nat))).back = 8 ∧
    (8 : Nat) &&& ((FromSlice (List.replicate 8 (0 : Nat))).arr.length - 1) = 0 ∧
    (FromSlice (List.replicate 8 (0 : Nat))).front = 0 ∧
    (FromSlice (List.replicate 8 (0 : Nat))).length = 8 ∧
    (FromSlice (List.replicate 8 (0 : Nat))).arr.length =
      (nextPowerOfTwo ((List.replicate 8 (0 : Nat)).length : Int)).toNat := by
  decide

/-- Claim C5: pushing any list of values with `PushBack` onto a queue
created by `NewQueue` and then popping from the front until empty yields
the values in the same order, each with `present = true`; the number of
pops needed is exactly the number of pushes. -/
theorem C5_fifo {T : Type} [Inhabited T] (V : List T) :
    (drainFront (V.foldl Queue.PushBack (NewQueue T)).Len
        (V.foldl Queue.PushBack (NewQueue T))).1 = V.map (fun v => (v, true)) ∧
    (drainFront (V.foldl Queue.PushBack (NewQueue T)).Len
        (V.foldl Queue.PushBack (NewQueue T))).2.IsEmpty = true ∧
    (V.foldl Queue.PushBack (NewQueue T)).Len = V.length := by
  obtain ⟨hinv, htl⟩ := foldl_pushBack V (NewQueue T) inv_newQueue
  rw [toList_newQueue, List.nil_append] at htl
  have hlen : (V.foldl Queue.PushBack (NewQueue T)).Len = V.length := by
    show (V.foldl Queue.PushBack (NewQueue T)).length = V.length
    rw [← length_toList, htl]
  obtain ⟨h1, h2⟩ := drainFront_spec (V.foldl Queue.PushBack (NewQueue T)).Len
    (V.foldl Queue.PushBack (NewQueue T)) hinv.1 (Nat.le_refl _)
  refine ⟨?_, isEmpty_true h2, hlen⟩
  rw [h1, htl]

/-- Claim C6: on an empty queue, `PopFront`, `PopBack`, `Front` and
`Back` each report absence (the zero value with `present = false`) and
leave the state — in particular a later `Len()` — unchanged;
`Front`/`Back` return no state at all in the model, matching their
mutation-free Go bodies. -/
theorem C6_empty_behaviour {T : Type} [Inhabited T] (q : Queue T) (h : q.length = 0) :
    q.PopFront = ((default, false), q) ∧
    q.PopBack = ((default, false), q) ∧
    q.Front = (default, false) ∧
    q.Back = (default, false) ∧
    (q.PopFront).2.Len = q.Len ∧ (q.PopBack).2.Len = q.Len := by
  refine ⟨popFront_empty q h, popBack_empty q h, front_empty q h, back_empty q h, ?_, ?_⟩
  · rw [popFront_empty q h]
  · rw [popBack_empty q h]

theorem C6_empty_behaviour_witness :
    (NewQueue Nat).length = 0 ∧
    ((NewQueue Nat).PopFront = ((default, false), NewQueue Nat) ∧
      (NewQueue Nat).PopBack = ((default, false), NewQueue Nat) ∧
      (NewQueue Nat).Front = (default, false) ∧
      (NewQueue Nat).Back = (default, false) ∧
      ((NewQueue Nat).PopFront).2.Len = (NewQueue Nat).Len ∧
      ((NewQueue Nat).PopBack).2.Len = (NewQueue Nat).Len) :=
  ⟨rfl, C6_empty_behaviour (NewQueue Nat) rfl⟩

/-- Claim C7: a removal from a non-empty state halves the capacity
exactly when the decremented count both exceeds the minimum capacity 8
and equals a quarter of the capacity; in every other case the capacity is
unchanged. -/
theorem C7_shrink_trigger {T : Type} [Inhabited T] (q : Queue T) (h : 0 < q.length) :
    ((q.PopFront).2.arr.length =
      if minCapacity < q.length - 1 ∧ q.length - 1 = q.arr.length / 4 then q.arr.length / 2
      else q.arr.length) ∧
    ((q.PopBack).2.arr.length =
      if minCapacity < q.length - 1 ∧ q.length - 1 = q.arr.length / 4 then q.arr.length / 2
      else q.arr.length) := by
  rw [popFront_eq q h, popBack_eq q h]
  exact ⟨shrink_arr_length _, shrink_arr_length _⟩

theorem C7_shrink_trigger_witness :
    0 < (Queue.PushBack (NewQueue Nat) 5).length ∧
    (((Queue.PushBack (NewQueue Nat) 5).PopFront).2.arr.length =
      if minCapacity < (Queue.PushBack (NewQueue Nat) 5).length - 1 ∧
          (Queue.PushBack (NewQueue Nat) 5).length - 1 =
            (Queue.PushBack (NewQueue Nat) 5).arr.length / 4 then
        (Queue.PushBack (NewQueue Nat) 5).arr.length / 2
      else (Queue.PushBack (NewQueue Nat) 5).arr.length) ∧
    (((Queue.PushBack (NewQueue Nat) 5).PopBack).2.arr.length =
      if minCapacity < (Queue.PushBack (NewQueue Nat) 5).length - 1 ∧
          (Queue.PushBack (NewQueue Nat) 5).length - 1 =
            (Queue.PushBack (NewQueue Nat) 5).arr.length / 4 then
        (Queue.PushBack (NewQueue Nat) 5).arr.length / 2
      else (Queue.PushBack (NewQueue Nat) 5).arr.length) :=
  ⟨by decide, C7_shrink_trigger (Queue.PushBack (NewQueue Nat) 5) (by decide)⟩

/-- Claim C8 fails on the code: in the reachable state obtained by
`FromSlice` on an 8-element slice followed by one `PopFront`, a
`PushBack` reaches the raw accessor with index `back = 8` while the
buffer holds only 8 slots (`grow` does not fire since the count is 7), so
the unchecked raw write is out of bounds. -/
theorem C8_raw_index_out_of_bounds :
    ((FromSlice (List.replicate 8 (0 : Nat))).PopFront).2.grow.back = 8 ∧
    ((FromSlice (List.replicate 8 (0 : Nat))).PopFront).2.grow.arr.length = 8 ∧
    ¬ ((FromSlice (List.replicate 8 (0 : Nat))).PopFront).2.grow.back <
        ((FromSlice (List.replicate 8 (0 : Nat))).PopFront).2.grow.arr.length := by
  decide

/-- Claim C9, amended to the inputs where the 64-bit computation does not
overflow (`n ≤ 2 ^ 62`): `nextPowerOfTwo` returns the minimum capacity 8
below it, otherwise the smallest power of two at least `n`; in particular
it is the identity on powers of two at least 8.  (It is a pure function
by construction of the embedding.) -/
theorem C9_nextPowerOfTwo_correct (n : Nat) (hn : n ≤ 2 ^ 62) :
    (n < minCapacity → nextPowerOfTwo (n : Int) = (minCapacity : Int)) ∧
    (minCapacity ≤ n → ∃ k : Nat, nextPowerOfTwo (n : Int) = ((2 ^ k : Nat) : Int) ∧
      n ≤ 2 ^ k ∧ ∀ j : Nat, n ≤ 2 ^ j → k ≤ j) ∧
    ((∃ k : Nat, n = 2 ^ k) → minCapacity ≤ n → nextPowerOfTwo (n : Int) = (n : Int)) := by
  refine ⟨fun h => nextPowerOfTwo_small h, fun h => nextPowerOfTwo_spec h hn |>.imp ?_, ?_⟩
  · rintro k ⟨h1, h2, _, h4⟩
    exact ⟨h1, h2, h4⟩
  · rintro ⟨k, rfl⟩ h8
    obtain ⟨j, hval, hge, _, hmin⟩ := nextPowerOfTwo_spec h8 hn
    have hjk : j ≤ k := hmin k (Nat.le_refl _)
    have hkj : k ≤ j := (Nat.pow_le_pow_iff_right (by norm_num : 1 < 2)).mp hge
    have : j = k := by omega
    rw [hval, this]

theorem C9_nextPowerOfTwo_correct_witness :
    (9 : Nat) ≤ 2 ^ 62 ∧
    ((9 < minCapacity → nextPowerOfTwo ((9 : Nat) : Int) = (minCapacity : Int)) ∧
      (minCapacity ≤ 9 → ∃ k : Nat, nextPowerOfTwo ((9 : Nat) : Int) = ((2 ^ k : Nat) : Int) ∧
        9 ≤ 2 ^ k ∧ ∀ j : Nat, 9 ≤ 2 ^ j → k ≤ j) ∧
      ((∃ k : Nat, (9 : Nat) = 2 ^ k) → minCapacity ≤ 9 →
        nextPowerOfTwo ((9 : Nat) : Int) = ((9 : Nat) : Int))) :=
  ⟨by decide, C9_nextPowerOfTwo_correct 9 (by decide)⟩

/-- Claim C9 as stated is false on the code: at the representable input
`n = 2 ^ 62 + 1` the 64-bit increment overflows, and `nextPowerOfTwo`
returns the negative value `-2 ^ 63` instead of the smallest power of two
at least `n` (which the claim asserts for every non-negative `n`). -/
theorem C9_overflow_counterexample :
    nextPowerOfTwo ((2 ^ 62 + 1 : Nat) : Int) = -(2 ^ 63) ∧
    nextPowerOfTwo ((2 ^ 62 + 1 : Nat) : Int) < ((2 ^ 62 + 1 : Nat) : Int) := by
  have hval : nextPowerOfTwo ((2 ^ 62 + 1 : Nat) : Int) = -(2 ^ 63) := by
    rw [nextPowerOfTwo, if_neg (by decide)]
    have htn : (((2 ^ 62 + 1 : Nat) : Int) - 1).toNat = 2 ^ 62 := by
      omega
    rw [htn]
    have hlog : (2 ^ 62 : Nat).log2 = 62 := Nat.log2_two_pow
    rw [smear_eq_ones (by norm_num) (by rw [hlog]; omega)]
    rw [hlog]
    have hones : (2 : Nat) ^ (62 + 1) - 1 + 1 = 2 ^ 63 := by norm_num
    rw [hones]
    simp only [toSigned64]
    rw [Nat.mod_eq_of_lt (by norm_num), if_neg (by norm_num)]
    norm_num
  refine ⟨hval, ?_⟩
  rw [hval]
  omega

/-- Claim C10: in every reachable state, a removal changes the capacity
only if the capacity was at least 64, and the shrink halves it, so the
result is at least 32; capacities 8 and 16 can therefore never be
produced by a shrink. -/
theorem C10_shrink_floor {T : Type} [Inhabited T] (S : List T) (hS : S.length ≤ 2 ^ 62)
    (init : Queue T) (hinit : init = NewQueue T ∨ init = FromSlice S) (ops : List (Op T)) :
    ((runOps init ops).PopFront.2.arr.length ≠ (runOps init ops).arr.length →
      64 ≤ (runOps init ops).arr.length ∧
      (runOps init ops).PopFront.2.arr.length = (runOps init ops).arr.length / 2 ∧
      32 ≤ (runOps init ops).PopFront.2.arr.length) ∧
    ((runOps init ops).PopBack.2.arr.length ≠ (runOps init ops).arr.length →
      64 ≤ (runOps init ops).arr.length ∧
      (runOps init ops).PopBack.2.arr.length = (runOps init ops).arr.length / 2 ∧
      32 ≤ (runOps init ops).PopBack.2.arr.length) := by
  have hinv : InvW init := by
    rcases hinit with h | h
    · rw [h]
      exact inv_newQueue.1
    · rw [h]
      exact invW_fromSlice hS
  have hq := invW_runOps ops init hinv
  set q := runOps init ops with hqdef
  have hhalf : q.arr.length >>> 1 = q.arr.length / 2 := by
    rw [Nat.shiftRight_eq_div_pow]
  constructor
  · intro hne
    by_cases h0 : 0 < q.length
    · rcases (popFront_spec q hq h0).2.2.2.2 with hsame | ⟨h64, hv⟩
      · exact absurd hsame hne
      · rw [hv, hhalf]
        refine ⟨h64, rfl, by omega⟩
    · rw [popFront_empty q (by omega)] at hne
      exact absurd rfl hne
  · intro hne
    by_cases h0 : 0 < q.length
    · rcases (popBack_spec q hq h0).2.2 with hsame | ⟨h64, hv⟩
      · exact absurd hsame hne
      · rw [hv, hhalf]
        refine ⟨h64, rfl, by omega⟩
    · rw [popBack_empty q (by omega)] at hne
      exact absurd rfl hne

theorem C10_shrink_floor_witness :
    ((List.replicate 33 (0 : Nat)).length ≤ 2 ^ 62 ∧
      (FromSlice (List.replicate 33 (0 : Nat)) = NewQueue Nat ∨
        FromSlice (List.replicate 33 (0 : Nat)) = FromSlice (List.replicate 33 (0 : Nat)))) ∧
    (64 ≤ (runOps (FromSlice (List.replicate 33 (0 : Nat)))
        (List.replicate 16 Op.popFront)).arr.length ∧
      (runOps (FromSlice (List.replicate 33 (0 : Nat)))
          (List.replicate 16 Op.popFront)).PopFront.2.arr.length =
        (runOps (FromSlice (List.replicate 33 (0 : Nat)))
          (List.replicate 16 Op.popFront)).arr.length / 2 ∧
      32 ≤ (runOps (FromSlice (List.replicate 33 (0 : Nat)))
          (List.replicate 16 Op.popFront)).PopFront.2.arr.length) := by
  refine ⟨⟨by decide, Or.inr rfl⟩, ?_⟩
  exact (C10_shrink_floor (List.replicate 33 (0 : Nat)) (by decide)
      (FromSlice (List.replicate 33 (0 : Nat))) (Or.inr rfl)
      (List.replicate 16 Op.popFront)).1 (by decide)

end BFQ
